import Mathlib

/-!
Shallow embedding of the NailLock habit tracker (`src/app.py`).

Modelling conventions, each mirroring the Python source:

* Calendar days in the daily log are modelled as `Int` day ordinals.
  `dt.date` and its ISO string `date.isoformat()` are in order-preserving
  bijection, `date - timedelta(days=1)` is `d - 1`, and the daily-log code
  only ever compares day strings for equality / set membership, so the
  ordinal is a faithful token for both the date and its ISO string.
  Photo days, by contrast, are kept as `String`, because the export/import
  code parses day strings out of archive paths character by character.
* The four checklist flags are stored in SQLite as the integers `0`/`1`
  (every writer passes `int(bool)`); they are modelled as `Bool`, with
  `bint` mirroring Python's `int()` on a boolean and Python truthiness of
  the stored integer being `Bool` identity.
* Python byte strings are `List Nat`; base64 encoding (`b64encode` /
  `b64decode`) is a bijection used only as encode-then-decode, so it is
  modelled as the identity on the byte list.
* SQLite tables are Lean lists of rows; `ORDER BY` clauses become
  `List.insertionSort` with the corresponding key order; the photos
  AUTOINCREMENT key is an explicit `nextId` counter.
-/

/-- One row of the `daily_log` table: `day TEXT PRIMARY KEY`, four 0/1
action flags, free-text notes. -/
structure DailyRecord where
  day : Int
  did_treatment : Bool
  washed_dried : Bool
  fresh_socks : Bool
  shoes_aired : Bool
  notes : String
deriving Repr, DecidableEq

/-- Python `int()` applied to a boolean. -/
def bint (b : Bool) : Nat := if b then 1 else 0

/-- `score_row` (app.py line 163): sum of the four action flags. -/
def score_row (r : DailyRecord) : Nat :=
  bint r.did_treatment + bint r.washed_dried + bint r.fresh_socks + bint r.shoes_aired

/-- The "done" test of `streak_and_done_days` (app.py line 173): Python
truthiness of `int(r[flag]) or ...` across the four flags. -/
def any_action (r : DailyRecord) : Bool :=
  r.did_treatment || r.washed_dried || r.fresh_socks || r.shoes_aired

/-- The `done_days` set built by the first loop of `streak_and_done_days`
(app.py lines 172-174).  A Python `set` exposes only membership and size,
so it is modelled as a duplicate-free list with guarded insertion. -/
def done_days_of (df : List DailyRecord) : List Int :=
  df.foldl (fun s r => if any_action r then (if r.day ∈ s then s else r.day :: s) else s) []

/-- The backward `while cursor.isoformat() in done_days` walk of
`streak_and_done_days` (app.py lines 183-185).  The Python loop always
terminates because each pass consumes a distinct member of the finite
`done_days` set; the fuel argument makes that termination explicit and is
always instantiated with `(done_days_of df).length + 1`, which is proved
below (`streakLoop_le_length`) to be more fuel than the loop can use. -/
def streakLoop (done : List Int) (cursor : Int) : Nat → Nat
  | 0 => 0
  | fuel + 1 => if cursor ∈ done then streakLoop done (cursor - 1) fuel + 1 else 0

/-- The streak anchor (app.py lines 178-181): start at today, step back to
yesterday when today is not yet done. -/
def streakAnchor (df : List DailyRecord) (today : Int) : Int :=
  if today ∈ done_days_of df then today else today - 1

/-- `streak_and_done_days` (app.py lines 166-187).  `today` is
`dt.date.today()`, passed explicitly. -/
def streak_and_done_days (df : List DailyRecord) (today : Int) : Nat × List Int :=
  if df = [] then (0, [])
  else
    let done := done_days_of df
    (streakLoop done (streakAnchor df today) (done.length + 1), done)

/-- `level_for` (app.py lines 189-195). -/
def level_for (streak : Nat) : String :=
  if streak ≥ 90 then "Titan"
  else if streak ≥ 60 then "Platinum"
  else if streak ≥ 30 then "Gold"
  else if streak ≥ 14 then "Silver"
  else if streak ≥ 7 then "Bronze"
  else "Starter"

/-- `badge_for` (app.py lines 197-203). -/
def badge_for (streak : Nat) : String :=
  if streak ≥ 90 then "🏆 90-Day Lock"
  else if streak ≥ 60 then "💠 60-Day Steel"
  else if streak ≥ 30 then "🥇 30-Day Gold"
  else if streak ≥ 14 then "🥈 14-Day Silver"
  else if streak ≥ 7 then "🥉 7-Day Bronze"
  else "🟢 Start"

/-- Placement of the five `level_for` labels on the tier ladder, lowest
tier `0`. -/
def levelRank (s : String) : Nat :=
  if s = "Titan" then 5
  else if s = "Platinum" then 4
  else if s = "Gold" then 3
  else if s = "Silver" then 2
  else if s = "Bronze" then 1
  else 0

/-- Placement of the five `badge_for` labels on the tier ladder, lowest
tier `0`. -/
def badgeRank (s : String) : Nat :=
  if s = "🏆 90-Day Lock" then 5
  else if s = "💠 60-Day Steel" then 4
  else if s = "🥇 30-Day Gold" then 3
  else if s = "🥈 14-Day Silver" then 2
  else if s = "🥉 7-Day Bronze" then 1
  else 0

/-- The "Done days" metric of the Progress page (app.py line 501):
`int((df["score"] > 0).sum())`, where the `score` column is `score_row`
of each row (line 486). -/
def done_days_count (df : List DailyRecord) : Nat :=
  df.countP (fun r => decide (0 < score_row r))

/-- `get_daily` (app.py lines 108-116): the row for `day`, or the
all-zero default record when no row exists.  (`day` is the table's
primary key, so `fetchone` with the first matching row is faithful.) -/
def get_daily (store : List DailyRecord) (day : Int) : DailyRecord :=
  match store.find? (fun r => r.day == day) with
  | some r => r
  | none => ⟨day, false, false, false, false, ""⟩

/-- `upsert_daily` (app.py lines 93-106): SQLite
`INSERT ... ON CONFLICT(day) DO UPDATE`, i.e. replace the row with the
conflicting primary key in place, else append a fresh row. -/
def upsert_daily (store : List DailyRecord) (r : DailyRecord) : List DailyRecord :=
  if store.any (fun x => x.day == r.day) then
    store.map (fun x => if x.day == r.day then r else x)
  else store ++ [r]

/-- Day order used by `get_all_daily`'s `ORDER BY day ASC`. -/
def dayLe (a b : DailyRecord) : Prop := a.day ≤ b.day

instance : DecidableRel dayLe := fun a b => by unfold dayLe; infer_instance

/-- `get_all_daily` (app.py lines 118-124): all rows, ordered by day
ascending.  (ISO day strings sort lexicographically exactly as their
ordinals, so `Int` order is the SQLite `TEXT` order.) -/
def get_all_daily (store : List DailyRecord) : List DailyRecord :=
  store.insertionSort dayLe

/-! ### Photo store -/

/-- One row of the `photos` table (app.py lines 60-69).  `data_b64` holds
the base64 text of the photo bytes; since base64 is a bijection and the
code only ever decodes what it encoded, the encoded text is modelled by
the byte list itself (see `b64encode` / `b64decode`). -/
structure PhotoRow where
  id : Nat
  day : String
  kind : String
  filename : String
  mime : String
  data_b64 : List Nat
deriving Repr, DecidableEq

/-- `base64.b64encode(...)`: a bijection onto its range, modelled as the
identity on the byte list. -/
def b64encode (b : List Nat) : List Nat := b

/-- `base64.b64decode(...)`: inverse of `b64encode`, likewise the
identity. -/
def b64decode (b : List Nat) : List Nat := b

/-- The `photos` table with its AUTOINCREMENT counter (SQLite starts
surrogate keys at 1). -/
structure PhotoStore where
  nextId : Nat
  rows : List PhotoRow
deriving Repr, DecidableEq

/-- A freshly created photo store. -/
def PhotoStore.empty : PhotoStore := ⟨1, []⟩

/-- `add_photo` (app.py lines 126-137): reject payloads over the
3,000,000-byte cap before touching the table, else insert one row with
the next surrogate id.  The `ValueError` branch is the `Except.error`
case; it happens before any table mutation, so the caller's store is
untouched on error. -/
def add_photo (p : PhotoStore) (day kind filename mime : String) (data_bytes : List Nat) :
    Except String PhotoStore :=
  if data_bytes.length > 3000000 then
    Except.error "Photo too large (max ~3MB). Resize and try again."
  else
    Except.ok { nextId := p.nextId + 1
              , rows := p.rows ++ [⟨p.nextId, day, kind, filename, mime, b64encode data_bytes⟩] }

/-- Row order of `list_photos`'s `ORDER BY day ASC, id ASC`; `String`
order is lexicographic by code point, matching SQLite's byte order on
UTF-8 text. -/
def photoLe (a b : PhotoRow) : Prop :=
  a.day < b.day ∨ (a.day = b.day ∧ a.id ≤ b.id)

instance : DecidableRel photoLe := fun a b => by unfold photoLe; infer_instance

/-- `list_photos` (app.py lines 139-146): rows (optionally filtered by
kind) ordered by `(day, id)` ascending. -/
def list_photos (p : PhotoStore) (kind : Option String) : List PhotoRow :=
  match kind with
  | some k => (p.rows.filter (fun r => r.kind == k)).insertionSort photoLe
  | none => p.rows.insertionSort photoLe

/-! ### Python string helpers used by the export/import code -/

/-- Python `str.split(sep)` for a one-character separator, on the
character list of the string. -/
def pySplit (sep : Char) : List Char → List (List Char)
  | [] => [[]]
  | c :: rest =>
    match pySplit sep rest with
    | [] => [[]]
    | h :: t => if c = sep then [] :: h :: t else (c :: h) :: t

/-- Whether the first list is an initial segment of the second. -/
def startsWithL : List Char → List Char → Bool
  | [], _ => true
  | _ :: _, [] => false
  | p :: ps, c :: cs => p = c && startsWithL ps cs

/-- Python `str.startswith`. -/
def pyStartsWith (p s : String) : Bool := startsWithL p.toList s.toList

/-- Python `str.endswith`. -/
def pyEndsWith (p s : String) : Bool := startsWithL p.toList.reverse s.toList.reverse

/-- Python `os.path.basename`: everything after the last `/`. -/
def basenamePy (s : String) : String := ((pySplit '/' s.toList).getLastD []).asString

/-- The extension part of Python `os.path.splitext`: the suffix from the
last dot on, except that a run of leading dots with nothing before it
carries no extension (`splitext(".hidden") = (".hidden", "")`). -/
def extOf (l : List Char) : List Char :=
  if (l.reverse.takeWhile (fun c => c ≠ '.')).length = l.reverse.length then []
  else if (l.reverse.drop ((l.reverse.takeWhile (fun c => c ≠ '.')).length + 1)).all
      (fun c => c = '.') then []
  else '.' :: (l.reverse.takeWhile (fun c => c ≠ '.')).reverse

/-! ### The export/import archive codec (app.py sidebar, lines 268-314) -/

/-- One parsed row of `daily_log.csv`.  The flags are written as the
integers `0`/`1` by `df.to_csv` and read back as integers, on which the
importer's `int(...)` is the identity; they stay `Bool` here. -/
structure CsvRow where
  day : Int
  did_treatment : Bool
  washed_dried : Bool
  fresh_socks : Bool
  shoes_aired : Bool
  notes : String
deriving Repr, DecidableEq

/-- Serialization of a log row into `daily_log.csv` (field-level identity;
`df.to_csv` quotes text fields losslessly). -/
def toCsvRow (r : DailyRecord) : CsvRow :=
  ⟨r.day, r.did_treatment, r.washed_dried, r.fresh_socks, r.shoes_aired, r.notes⟩

/-- The strings `pd.read_csv` turns into float NaN by default (its
`na_values` list). -/
def pandasNaLike : List String :=
  ["", "#N/A", "#N/A N/A", "#NA", "-1.#IND", "-1.#QNAN", "-NaN", "-nan",
   "1.#IND", "1.#QNAN", "<NA>", "N/A", "NA", "NULL", "NaN", "None", "n/a", "nan", "null"]

/-- Strings `pd.read_csv` re-types as booleans. -/
def pandasBoolLike : List String := ["True", "False", "TRUE", "FALSE", "true", "false"]

/-- Conservative test for strings `pd.read_csv` may re-type as numbers. -/
def numericLike (s : String) : Bool :=
  !s.toList.isEmpty &&
    s.toList.all (fun c => c.isDigit || c = '.' || c = '-' || c = '+' || c = 'e' || c = 'E')

/-- What the importer's `str(r.get("notes","") or "")` yields for a notes
field that went through `df.to_csv` then `pd.read_csv`: NA-like fields
(including the empty string) are read back as float NaN — which is truthy
in Python, so `str` renders it as `"nan"` — and other strings come back
unchanged.  (Strings pandas re-types as numbers or booleans also come
back changed; the round-trip theorems exclude them via `notesSafe`
rather than model pandas' type inference.) -/
def csvNotes (s : String) : String :=
  if s ∈ pandasNaLike then "nan" else s

/-- Notes values that survive the CSV round-trip verbatim. -/
def notesSafe (s : String) : Prop :=
  s ∉ pandasNaLike ∧ s ∉ pandasBoolLike ∧ numericLike s = false

instance (s : String) : Decidable (notesSafe s) := by unfold notesSafe; infer_instance

/-- Deserialization of one `daily_log.csv` row by the import loop
(app.py lines 292-300): `str(day)`, `int(flag)`, and the notes quirk. -/
def csvToRecord (c : CsvRow) : DailyRecord :=
  ⟨c.day, c.did_treatment, c.washed_dried, c.fresh_socks, c.shoes_aired, csvNotes c.notes⟩

/-- The export ZIP, modelled at entry level: the parsed `daily_log.csv`
table (when present), and the named raw-byte entries under `photos/`.
(`photos_index.csv` is also written on export but never read by the
importer, so it is not modelled.) -/
structure Archive where
  logRows : Option (List CsvRow)
  files : List (String × List Nat)
deriving Repr, DecidableEq

/-- `fname = r["filename"] or f"{r['kind']}_{r['day']}_{r['id']}.jpg"`
(app.py line 278); `None`/empty filenames are both falsy and both
modelled as `""`. -/
def effFilename (r : PhotoRow) : String :=
  if r.filename = "" then r.kind ++ "_" ++ r.day ++ "_" ++ Nat.repr r.id ++ ".jpg"
  else r.filename

/-- `ext = os.path.splitext(fname)[1] or ".jpg"` (app.py line 279). -/
def photoExt (r : PhotoRow) : String :=
  if (extOf (effFilename r).toList).asString = "" then ".jpg"
  else (extOf (effFilename r).toList).asString

/-- `safe = f"photos/{r['kind']}/{r['day']}_{r['id']}{ext}"` (line 280). -/
def photoPath (r : PhotoRow) : String :=
  "photos/" ++ r.kind ++ "/" ++ r.day ++ "_" ++ Nat.repr r.id ++ photoExt r

/-- The export ZIP builder (app.py lines 268-283): `daily_log.csv` from
`get_all_daily()`, then each photo's decoded bytes at `photoPath`, in
`list_photos()` order. -/
def exportZip (L : List DailyRecord) (P : PhotoStore) : Archive :=
  { logRows := some ((get_all_daily L).map toCsvRow)
  , files := (list_photos P none).map (fun r => (photoPath r, b64decode r.data_b64)) }

/-- Outcome of the import handler: both stores after the attempt, and
whether it reached the success banner (`False` = the `except` branch ran,
leaving whatever had already been committed). -/
structure ImportResult where
  log : List DailyRecord
  photos : PhotoStore
  ok : Bool
deriving Repr, DecidableEq

/-- The photo half of the import loop (app.py lines 302-311): for each
entry under `photos/` not ending in `/` whose path has at least three
components, guess the day from the third component's prefix before the
first `_` (falling back to today if it is not 10 characters long) and
`add_photo` it with kind taken from the second component, the entry's
basename, and a hardcoded `image/jpeg` mime.  A raised size error aborts
the whole loop, keeping the rows added so far. -/
def importPhotosLoop (today : String) : PhotoStore → List (String × List Nat) → PhotoStore × Bool
  | p, [] => (p, true)
  | p, (name, blob) :: rest =>
    if pyStartsWith "photos/" name && !pyEndsWith "/" name then
      match pySplit '/' name.toList with
      | _ :: p1 :: p2 :: _ =>
        let kind := p1.asString
        let day_guessL := (pySplit '_' p2).headD []
        let day := if day_guessL.length = 10 then day_guessL.asString else today
        match add_photo p day kind (basenamePy name) "image/jpeg" blob with
        | Except.ok p' => importPhotosLoop today p' rest
        | Except.error _ => (p, false)
      | _ => importPhotosLoop today p rest
    else importPhotosLoop today p rest

/-- The log half of the import loop (app.py lines 290-300): upsert one
record per `daily_log.csv` row, in file order. -/
def importLogRows (L : List DailyRecord) (rows : List CsvRow) : List DailyRecord :=
  rows.foldl (fun s c => upsert_daily s (csvToRecord c)) L

/-- The import ZIP handler (app.py lines 285-314): upsert every
`daily_log.csv` row (if that entry exists), then run the photo loop.
`today` is `today_iso()`.  The log phase precedes the photo phase, so a
photo-size failure still leaves all log upserts applied. -/
def importZip (A : Archive) (L : List DailyRecord) (P : PhotoStore) (today : String) :
    ImportResult :=
  let L' := match A.logRows with
    | some rows => importLogRows L rows
    | none => L
  let pr := importPhotosLoop today P A.files
  ⟨L', pr.1, pr.2⟩

/-! ### Streak engine lemmas -/

/-- Membership in the fold that builds `done_days`, generalized over the
accumulator. -/
theorem mem_done_foldl (df : List DailyRecord) (acc : List Int) (d : Int) :
    d ∈ df.foldl
        (fun s r => if any_action r then (if r.day ∈ s then s else r.day :: s) else s) acc ↔
      d ∈ acc ∨ ∃ r ∈ df, r.day = d ∧ any_action r = true := by
  induction df generalizing acc with
  | nil => simp
  | cons r rest ih =>
    simp only [List.foldl_cons, ih, List.exists_mem_cons_iff]
    split_ifs with ha hm
    · constructor
      · rintro (h | h)
        · exact Or.inl h
        · exact Or.inr (Or.inr h)
      · rintro (h | ⟨hd, _⟩ | h)
        · exact Or.inl h
        · exact Or.inl (hd ▸ hm)
        · exact Or.inr h
    · simp only [List.mem_cons]
      constructor
      · rintro ((h | h) | h)
        · exact Or.inr (Or.inl ⟨h.symm, ha⟩)
        · exact Or.inl h
        · exact Or.inr (Or.inr h)
      · rintro (h | ⟨hd, _⟩ | h)
        · exact Or.inl (Or.inr h)
        · exact Or.inl (Or.inl hd.symm)
        · exact Or.inr h
    · constructor
      · rintro (h | h)
        · exact Or.inl h
        · exact Or.inr (Or.inr h)
      · rintro (h | ⟨_, hact⟩ | h)
        · exact Or.inl h
        · exact absurd hact ha
        · exact Or.inr h

/-- A day is in `done_days` iff some record of the history has that day
and passes the any-action test. -/
theorem mem_done_days_iff (df : List DailyRecord) (d : Int) :
    d ∈ done_days_of df ↔ ∃ r ∈ df, r.day = d ∧ any_action r = true := by
  unfold done_days_of
  rw [mem_done_foldl]
  simp

/-- Every step of the backward walk visits a done day. -/
theorem streakLoop_mem :
    ∀ (fuel : Nat) (done : List Int) (cursor : Int) (i : Nat),
      i < streakLoop done cursor fuel → cursor - i ∈ done := by
  intro fuel
  induction fuel with
  | zero => intro done cursor i h; simp [streakLoop] at h
  | succ fuel ih =>
    intro done cursor i h
    unfold streakLoop at h
    by_cases hc : cursor ∈ done
    · rw [if_pos hc] at h
      match i with
      | 0 => simpa using hc
      | j + 1 =>
        have hj : j < streakLoop done (cursor - 1) fuel := by omega
        have := ih done (cursor - 1) j hj
        have harith : cursor - (↑(j + 1) : Int) = cursor - 1 - j := by push_cast; ring
        rwa [harith]
    · rw [if_neg hc] at h; omega

/-- The walk's result never exceeds its fuel. -/
theorem streakLoop_le (fuel : Nat) (done : List Int) (cursor : Int) :
    streakLoop done cursor fuel ≤ fuel := by
  induction fuel generalizing cursor with
  | zero => simp [streakLoop]
  | succ fuel ih =>
    unfold streakLoop
    split
    · exact Nat.succ_le_succ (ih _)
    · omega

/-- When the walk stops before running out of fuel, it stopped at a gap. -/
theorem streakLoop_stops (fuel : Nat) (done : List Int) (cursor : Int)
    (h : streakLoop done cursor fuel < fuel) :
    cursor - (streakLoop done cursor fuel : Int) ∉ done := by
  induction fuel generalizing cursor with
  | zero => omega
  | succ fuel ih =>
    unfold streakLoop at h ⊢
    by_cases hc : cursor ∈ done
    · rw [if_pos hc] at h ⊢
      have hlt : streakLoop done (cursor - 1) fuel < fuel := by omega
      have := ih (cursor - 1) hlt
      have harith : cursor - (↑(streakLoop done (cursor - 1) fuel + 1) : Int) =
          cursor - 1 - (streakLoop done (cursor - 1) fuel : Int) := by push_cast; ring
      rwa [harith]
    · rw [if_neg hc]
      simpa using hc

/-- The walk consumes distinct done days, so its length is at most the
size of the done set. -/
theorem streakLoop_le_length (fuel : Nat) (done : List Int) (cursor : Int) :
    streakLoop done cursor fuel ≤ done.length := by
  set n := streakLoop done cursor fuel with hn
  have hmem : ∀ i : Nat, i < n → cursor - i ∈ done := fun i hi =>
    streakLoop_mem fuel done cursor i (by omega)
  have hinj : Function.Injective (fun i : Nat => (cursor - i : Int)) := by
    intro a b hab
    simp only [] at hab
    omega
  have hsub : (Finset.range n).image (fun i : Nat => (cursor - i : Int)) ⊆ done.toFinset := by
    intro x hx
    simp only [Finset.mem_image, Finset.mem_range] at hx
    obtain ⟨i, hi, rfl⟩ := hx
    exact List.mem_toFinset.2 (hmem i hi)
  have h1 : ((Finset.range n).image (fun i : Nat => (cursor - i : Int))).card = n := by
    rw [Finset.card_image_of_injective _ hinj, Finset.card_range]
  have h2 := Finset.card_le_card hsub
  have h3 := List.toFinset_card_le done
  omega

/-- The second component of `streak_and_done_days` is always
`done_days_of` (the empty-history early return returns the same empty
set). -/
theorem streak_snd (df : List DailyRecord) (today : Int) :
    (streak_and_done_days df today).2 = done_days_of df := by
  unfold streak_and_done_days
  split
  · rename_i h; subst h; rfl
  · rfl

/-- Characterization of the streak value: every day in the window
`anchor, anchor-1, ..., anchor-streak+1` is done, and the day just before
the window is not. -/
theorem streak_run (df : List DailyRecord) (today : Int) :
    (∀ i : Nat, i < (streak_and_done_days df today).1 →
        streakAnchor df today - i ∈ done_days_of df) ∧
      streakAnchor df today - ((streak_and_done_days df today).1 : Int) ∉ done_days_of df := by
  unfold streak_and_done_days
  by_cases h : df = []
  · subst h
    simp [done_days_of]
  · rw [if_neg h]
    simp only []
    set done := done_days_of df with hd
    constructor
    · intro i hi
      exact streakLoop_mem _ done _ i hi
    · apply streakLoop_stops
      have := streakLoop_le_length (done.length + 1) done (streakAnchor df today)
      omega

/-- The backward-contiguous-run length is unique, so any candidate run
pins the streak value down. -/
theorem streak_eq_of_run (df : List DailyRecord) (today : Int) (n : Nat)
    (hrun : ∀ i : Nat, i < n → streakAnchor df today - i ∈ done_days_of df)
    (hstop : streakAnchor df today - (n : Int) ∉ done_days_of df) :
    (streak_and_done_days df today).1 = n := by
  obtain ⟨hrun', hstop'⟩ := streak_run df today
  set s := (streak_and_done_days df today).1 with hs
  rcases Nat.lt_trichotomy s n with h | h | h
  · exact absurd (hrun s h) hstop'
  · exact h
  · exact absurd (hrun' n h) hstop

/-- A record whose only logged action is the treatment: it passes the
any-action rule. -/
def passRec (d : Int) : DailyRecord := ⟨d, true, false, false, false, ""⟩

/-- An explicit zero-score record: logged, but no action true. -/
def zeroRec (d : Int) : DailyRecord := ⟨d, false, false, false, false, ""⟩

/-- Claim C2: the streak computation anchors at today, moving the anchor
back to yesterday when today is not in the done-day set, and counts the
backward-contiguous run of done days from the anchor, stopping at the
first gap; concretely, a history where days `D-1, D-2, D-3` pass and `D`
(today) has no record yields streak `3`. -/
theorem C2_streak_anchor (df : List DailyRecord) (today : Int) :
    ((∀ i : Nat, i < (streak_and_done_days df today).1 →
        streakAnchor df today - i ∈ (streak_and_done_days df today).2) ∧
      streakAnchor df today - ((streak_and_done_days df today).1 : Int) ∉
        (streak_and_done_days df today).2) ∧
    ∀ t : Int,
      (streak_and_done_days [passRec (t - 1), passRec (t - 2), passRec (t - 3)] t).1 = 3 := by
  constructor
  · rw [streak_snd]
    exact streak_run df today
  · intro t
    have hmem : ∀ d : Int,
        d ∈ done_days_of [passRec (t - 1), passRec (t - 2), passRec (t - 3)] ↔
          d = t - 1 ∨ d = t - 2 ∨ d = t - 3 := by
      intro d
      rw [mem_done_days_iff]
      simp only [List.exists_mem_cons_iff, List.not_mem_nil, false_and, exists_false,
        passRec, any_action]
      simp
      omega
    have hanchor : streakAnchor [passRec (t - 1), passRec (t - 2), passRec (t - 3)] t = t - 1 := by
      unfold streakAnchor
      rw [if_neg]
      rw [hmem]
      omega
    apply streak_eq_of_run
    · intro i hi
      rw [hanchor, hmem]
      omega
    · rw [hanchor, hmem]
      omega

/-- Witness for `C2_streak_anchor` at concrete inputs: a single passing
record for day 5 queried on day 5 gives a positive streak whose first
backward step is a done day, and the three-day scenario at `t = 10`. -/
theorem C2_streak_anchor_witness :
    (0 < (streak_and_done_days [passRec 5] 5).1 ∧
      streakAnchor [passRec 5] 5 - ((0 : Nat) : Int) ∈ (streak_and_done_days [passRec 5] 5).2) ∧
    (streak_and_done_days [passRec (10 - 1), passRec (10 - 2), passRec (10 - 3)] 10).1 = 3 :=
  ⟨⟨by decide, (C2_streak_anchor [passRec 5] 5).1.1 0 (by decide)⟩,
    (C2_streak_anchor [] 0).2 10⟩

/-- Claim C3: the streak is a non-negative integer for every history, and
the empty history yields streak `0` with the empty done-day set. -/
theorem C3_streak_nonneg :
    (∀ (df : List DailyRecord) (today : Int), 0 ≤ (streak_and_done_days df today).1) ∧
    ∀ today : Int, streak_and_done_days [] today = (0, []) := by
  constructor
  · intro df today
    exact Nat.zero_le _
  · intro today
    rfl

/-- Claim C4: a logged record whose actions are all false is not in the
done-day set (with `day` the primary key, the record is the day's only
row), and such an explicit zero-score day terminates the streak:
days `D, D-1` pass, `D-2` is an explicit zero record, `D-3` passes,
giving streak `2`. -/
theorem C4_zero_record_not_done (df : List DailyRecord) (today : Int) (r : DailyRecord)
    (hnd : (df.map (fun x => x.day)).Nodup) (hr : r ∈ df)
    (hz : r.did_treatment = false ∧ r.washed_dried = false ∧ r.fresh_socks = false ∧
      r.shoes_aired = false) :
    r.day ∉ (streak_and_done_days df today).2 ∧
    ∀ t : Int,
      (streak_and_done_days [passRec t, passRec (t - 1), zeroRec (t - 2), passRec (t - 3)] t).1
        = 2 := by
  constructor
  · rw [streak_snd]
    intro hmem
    rw [mem_done_days_iff] at hmem
    obtain ⟨r', hr', hday, hact⟩ := hmem
    have heq : r' = r := List.inj_on_of_nodup_map hnd hr' hr hday
    subst heq
    rw [any_action, hz.1, hz.2.1, hz.2.2.1, hz.2.2.2] at hact
    simp at hact
  · intro t
    have hmem : ∀ d : Int,
        d ∈ done_days_of [passRec t, passRec (t - 1), zeroRec (t - 2), passRec (t - 3)] ↔
          d = t ∨ d = t - 1 ∨ d = t - 3 := by
      intro d
      rw [mem_done_days_iff]
      simp only [List.exists_mem_cons_iff, List.not_mem_nil, false_and, exists_false,
        passRec, zeroRec, any_action]
      simp
      omega
    have hanchor :
        streakAnchor [passRec t, passRec (t - 1), zeroRec (t - 2), passRec (t - 3)] t = t := by
      unfold streakAnchor
      rw [if_pos]
      rw [hmem]
      omega
    apply streak_eq_of_run
    · intro i hi
      rw [hanchor, hmem]
      omega
    · rw [hanchor, hmem]
      omega

/-- Witness for `C4_zero_record_not_done`: the zero record for day 3 in a
two-day history is not a done day. -/
theorem C4_zero_record_not_done_witness :
    (([zeroRec 3, passRec 4].map (fun x => x.day)).Nodup ∧ zeroRec 3 ∈ [zeroRec 3, passRec 4]) ∧
    (zeroRec 3).day ∉ (streak_and_done_days [zeroRec 3, passRec 4] 5).2 :=
  ⟨⟨by decide, by decide⟩,
    (C4_zero_record_not_done [zeroRec 3, passRec 4] 5 (zeroRec 3) (by decide) (by decide)
      (by decide)).1⟩

/-- The any-action pass test agrees pointwise with a positive score. -/
theorem any_action_eq_score (r : DailyRecord) : any_action r = decide (0 < score_row r) := by
  obtain ⟨day, a, b, c, e, notes⟩ := r
  cases a <;> cases b <;> cases c <;> cases e <;> simp [any_action, score_row, bint]

/-- Size of the `done_days` fold, generalized over the accumulator:
when no day repeats and none is already accumulated, each passing record
contributes exactly one new member. -/
theorem done_foldl_length :
    ∀ (df : List DailyRecord) (acc : List Int),
      (∀ r ∈ df, r.day ∉ acc) → (df.map (fun x => x.day)).Nodup →
      (df.foldl
          (fun s r => if any_action r then (if r.day ∈ s then s else r.day :: s) else s)
          acc).length
        = acc.length + df.countP (fun r => any_action r) := by
  intro df
  induction df with
  | nil =>
    intro acc _ _
    simp
  | cons r rest ih =>
    intro acc hacc hnd
    rw [List.map_cons, List.nodup_cons] at hnd
    simp only [List.foldl_cons, List.countP_cons]
    by_cases ha : any_action r
    · have hmem : r.day ∉ acc := hacc r (List.mem_cons_self r rest)
      rw [if_pos ha, if_neg hmem]
      have hacc' : ∀ x ∈ rest, x.day ∉ r.day :: acc := by
        intro x hx
        simp only [List.mem_cons]
        push_neg
        refine ⟨?_, hacc x (List.mem_cons_of_mem _ hx)⟩
        intro hxr
        exact hnd.1 (hxr ▸ List.mem_map_of_mem (fun y => y.day) hx)
      rw [ih (r.day :: acc) hacc' hnd.2]
      simp [ha]
      omega
    · rw [if_neg ha]
      rw [ih acc (fun x hx => hacc x (List.mem_cons_of_mem _ hx)) hnd.2]
      simp [ha]

/-- Claim C10: the streak engine's pass rule and the Progress page's
positive-score test are the same predicate — a day is done iff its
record scores at least 1 — so with `day` a primary key the done-day set
is exactly as large as the Progress page's "Done days" count. -/
theorem C10_done_iff_score (df : List DailyRecord) (hnd : (df.map (fun x => x.day)).Nodup) :
    (∀ r : DailyRecord, any_action r = true ↔ 1 ≤ score_row r) ∧
    (∀ d : Int, d ∈ done_days_of df ↔ ∃ r ∈ df, r.day = d ∧ 1 ≤ score_row r) ∧
    (done_days_of df).length = done_days_count df := by
  have h1 : ∀ r : DailyRecord, any_action r = true ↔ 1 ≤ score_row r := by
    intro r
    rw [any_action_eq_score, decide_eq_true_eq]
    omega
  refine ⟨h1, ?_, ?_⟩
  · intro d
    rw [mem_done_days_iff]
    constructor
    · rintro ⟨r, hr, hd, hact⟩
      exact ⟨r, hr, hd, (h1 r).1 hact⟩
    · rintro ⟨r, hr, hd, hsc⟩
      exact ⟨r, hr, hd, (h1 r).2 hsc⟩
  · have : done_days_count df = df.countP (fun r => any_action r) := by
      unfold done_days_count
      congr 1
      funext r
      exact (any_action_eq_score r).symm
    rw [this]
    have := done_foldl_length df [] (by simp) hnd
    simpa [done_days_of] using this

/-- Witness for `C10_done_iff_score` on a concrete two-day history. -/
theorem C10_done_iff_score_witness :
    (([zeroRec 3, passRec 4].map (fun x => x.day)).Nodup) ∧
    (done_days_of [zeroRec 3, passRec 4]).length = done_days_count [zeroRec 3, passRec 4] :=
  ⟨by decide, (C10_done_iff_score [zeroRec 3, passRec 4] (by decide)).2.2⟩

/-- Claim C5: `level_for` and `badge_for` are total step functions —
defined for every streak, returning the default tier below the lowest
breakpoint, in particular at streak 0 — monotone non-decreasing in the
tier ladder, and streak 91 reaches the top tier "Titan". -/
theorem C5_level_badge_monotone (s1 s2 : Nat) (h : s1 ≤ s2) :
    levelRank (level_for s1) ≤ levelRank (level_for s2) ∧
    badgeRank (badge_for s1) ≤ badgeRank (badge_for s2) ∧
    level_for 0 = "Starter" ∧ badge_for 0 = "🟢 Start" ∧
    level_for 91 = "Titan" ∧ badge_for 91 = "🏆 90-Day Lock" := by
  refine ⟨?_, ?_, by decide, by decide, by decide, by decide⟩
  · unfold level_for
    split_ifs <;> first | decide | omega
  · unfold badge_for
    split_ifs <;> first | decide | omega

/-- Witness for `C5_level_badge_monotone` at streaks 3 and 10. -/
theorem C5_level_badge_monotone_witness :
    3 ≤ 10 ∧ levelRank (level_for 3) ≤ levelRank (level_for 10) :=
  ⟨by decide, (C5_level_badge_monotone 3 10 (by decide)).1⟩

/-- Claim C6: the score is bounded (by 4, hence within `[0, 100]` — it is
a `Nat`, so non-negative by type) and monotone: setting any one action
to true never decreases it. -/
theorem C6_score_monotone_bounded (r : DailyRecord) :
    score_row r ≤ 4 ∧ score_row r ≤ 100 ∧
    score_row r ≤ score_row { r with did_treatment := true } ∧
    score_row r ≤ score_row { r with washed_dried := true } ∧
    score_row r ≤ score_row { r with fresh_socks := true } ∧
    score_row r ≤ score_row { r with shoes_aired := true } := by
  obtain ⟨day, a, b, c, e, notes⟩ := r
  cases a <;> cases b <;> cases c <;> cases e <;> simp [score_row, bint]

/-- Claim C7: `add_photo` on a payload exceeding the 3,000,000-byte cap
fails with the size-limit error; the error is raised before any insert,
so the caller's table is untouched (all-or-nothing). -/
theorem C7_add_photo_size_limit (p : PhotoStore) (day kind filename mime : String)
    (data_bytes : List Nat) (h : 3000000 < data_bytes.length) :
    add_photo p day kind filename mime data_bytes =
      Except.error "Photo too large (max ~3MB). Resize and try again." := by
  unfold add_photo
  rw [if_pos h]

/-- Witness for `C7_add_photo_size_limit`: a 3,500,000-byte payload. -/
theorem C7_add_photo_size_limit_witness :
    3000000 < (List.replicate 3500000 (0 : Nat)).length ∧
    add_photo PhotoStore.empty "2024-01-01" "weekly" "big.jpg" "image/jpeg"
        (List.replicate 3500000 (0 : Nat)) =
      Except.error "Photo too large (max ~3MB). Resize and try again." := by
  have h : 3000000 < (List.replicate 3500000 (0 : Nat)).length := by
    rw [List.length_replicate]
    norm_num
  exact ⟨h, C7_add_photo_size_limit _ _ _ _ _ _ h⟩

/-- Claim C9: `get_daily` on a day with no stored row returns the default
record — queried day, all four flags 0, empty notes.  It is a total
function (the `not row` branch), never an error or a missing value. -/
theorem C9_get_daily_default (store : List DailyRecord) (day : Int)
    (h : ∀ r ∈ store, r.day ≠ day) :
    get_daily store day = ⟨day, false, false, false, false, ""⟩ := by
  unfold get_daily
  have hnone : store.find? (fun r => r.day == day) = none := by
    rw [List.find?_eq_none]
    intro r hr
    simpa using h r hr
  rw [hnone]

/-- Witness for `C9_get_daily_default` on a one-row store missing day 5. -/
theorem C9_get_daily_default_witness :
    (∀ r ∈ [passRec 4], r.day ≠ 5) ∧
    get_daily [passRec 4] 5 = ⟨5, false, false, false, false, ""⟩ :=
  ⟨by decide, C9_get_daily_default [passRec 4] 5 (by decide)⟩

/-! ### Upsert algebra, toward log idempotence of import -/

/-- The day column of a log table. -/
def daysOf (S : List DailyRecord) : List Int := S.map (fun x => x.day)

/-- Sequential upserts, the shape of the import log phase. -/
def applyUpserts (L : List DailyRecord) (rs : List DailyRecord) : List DailyRecord :=
  rs.foldl upsert_daily L

/-- `importLogRows` is `applyUpserts` of the decoded records. -/
theorem importLogRows_eq_applyUpserts (L : List DailyRecord) (rows : List CsvRow) :
    importLogRows L rows = applyUpserts L (rows.map csvToRecord) := by
  unfold importLogRows applyUpserts
  rw [List.foldl_map]

/-- The day-presence test of `upsert_daily` in terms of the day column. -/
theorem any_day_iff (S : List DailyRecord) (d : Int) :
    S.any (fun x => x.day == d) = true ↔ d ∈ daysOf S := by
  rw [List.any_eq_true]
  unfold daysOf
  rw [List.mem_map]
  constructor
  · rintro ⟨x, hx, hbeq⟩
    exact ⟨x, hx, beq_iff_eq.1 hbeq⟩
  · rintro ⟨x, hx, hd⟩
    exact ⟨x, hx, beq_iff_eq.2 hd⟩

/-- Replacing the day-`r.day` rows does not change the day column. -/
theorem replace_daysOf (S : List DailyRecord) (r : DailyRecord) :
    daysOf (S.map (fun x => if x.day == r.day then r else x)) = daysOf S := by
  unfold daysOf
  rw [List.map_map]
  apply List.map_congr_left
  intro a _
  by_cases h : a.day = r.day
  · simp [Function.comp, h]
  · simp [Function.comp, h]

/-- The day column after an upsert: unchanged when the day was present,
extended by the new day otherwise. -/
theorem upsert_daysOf (S : List DailyRecord) (r : DailyRecord) :
    daysOf (upsert_daily S r) =
      if r.day ∈ daysOf S then daysOf S else daysOf S ++ [r.day] := by
  unfold upsert_daily
  by_cases h : r.day ∈ daysOf S
  · rw [if_pos ((any_day_iff S r.day).2 h), if_pos h]
    exact replace_daysOf S r
  · rw [if_neg (fun hc => h ((any_day_iff S r.day).1 hc)), if_neg h]
    simp [daysOf]

/-- An upsert never removes a day. -/
theorem upsert_daysOf_mono (S : List DailyRecord) (r : DailyRecord) (d : Int)
    (h : d ∈ daysOf S) : d ∈ daysOf (upsert_daily S r) := by
  rw [upsert_daysOf]
  split_ifs
  · exact h
  · exact List.mem_append_left _ h

/-- The upserted day is present afterwards. -/
theorem upsert_day_self (S : List DailyRecord) (r : DailyRecord) :
    r.day ∈ daysOf (upsert_daily S r) := by
  rw [upsert_daysOf]
  split_ifs with h
  · exact h
  · exact List.mem_append_right _ (by simp)

/-- After `upsert_daily S r`, every row on day `r.day` is `r`. -/
theorem upsert_allEq (S : List DailyRecord) (r : DailyRecord) :
    ∀ x ∈ upsert_daily S r, x.day = r.day → x = r := by
  intro x hx hd
  unfold upsert_daily at hx
  split_ifs at hx with hp
  · rw [List.mem_map] at hx
    obtain ⟨y, _, hy⟩ := hx
    by_cases h : y.day = r.day
    · rw [if_pos (by simpa using h)] at hy
      exact hy.symm
    · rw [if_neg (by simpa using h)] at hy
      exact absurd (hy ▸ hd) h
  · rw [List.mem_append] at hx
    rcases hx with hx | hx
    · exact absurd ((any_day_iff S r.day).2 (hd ▸ List.mem_map_of_mem (fun z => z.day) hx)) hp
    · simpa using hx

/-- Unfolds `upsert_daily` when the day is already present. -/
theorem upsert_present (S : List DailyRecord) (r : DailyRecord) (hp : r.day ∈ daysOf S) :
    upsert_daily S r = S.map (fun y => if y.day == r.day then r else y) := by
  unfold upsert_daily
  rw [if_pos ((any_day_iff S r.day).2 hp)]

/-- Unfolds `upsert_daily` when the day is absent. -/
theorem upsert_absent (S : List DailyRecord) (r : DailyRecord) (hp : r.day ∉ daysOf S) :
    upsert_daily S r = S ++ [r] := by
  unfold upsert_daily
  rw [if_neg (fun hc => hp ((any_day_iff S r.day).1 hc))]

/-- Upserting a record identical to everything already stored on its day
changes nothing. -/
theorem upsert_noop (S : List DailyRecord) (r : DailyRecord) (hp : r.day ∈ daysOf S)
    (h : ∀ x ∈ S, x.day = r.day → x = r) : upsert_daily S r = S := by
  rw [upsert_present S r hp]
  conv_rhs => rw [← List.map_id S]
  apply List.map_congr_left
  intro a ha
  by_cases hd : a.day = r.day
  · rw [if_pos (beq_iff_eq.2 hd)]
    exact (h a ha hd).symm
  · rw [if_neg (by simpa using hd)]
    rfl

/-- Two upserts on the same day collapse to the second. -/
theorem upsert_collapse (S : List DailyRecord) (r x : DailyRecord) (hd : x.day = r.day) :
    upsert_daily (upsert_daily S r) x = upsert_daily S x := by
  by_cases hp : r.day ∈ daysOf S
  · have hxp : x.day ∈ daysOf S := hd ▸ hp
    rw [upsert_present S r hp]
    have h2 : x.day ∈ daysOf (S.map (fun y => if y.day == r.day then r else y)) := by
      rw [replace_daysOf S r]
      exact hxp
    rw [upsert_present _ x h2, upsert_present S x hxp, List.map_map]
    apply List.map_congr_left
    intro a _
    simp only [Function.comp]
    by_cases h1 : a.day = r.day
    · have e1 : (if (a.day == r.day) = true then r else a) = r := if_pos (beq_iff_eq.2 h1)
      rw [e1, if_pos (beq_iff_eq.2 hd.symm), if_pos (beq_iff_eq.2 (h1.trans hd.symm))]
    · have e1 : (if (a.day == r.day) = true then r else a) = a := if_neg (by simpa using h1)
      rw [e1]
  · have hxp : x.day ∉ daysOf S := hd ▸ hp
    rw [upsert_absent S r hp]
    have h2 : x.day ∈ daysOf (S ++ [r]) := by
      unfold daysOf
      rw [List.map_append]
      exact List.mem_append_right _ (by simp [hd])
    rw [upsert_present _ x h2, upsert_absent S x hxp, List.map_append]
    congr 1
    · conv_rhs => rw [← List.map_id S]
      apply List.map_congr_left
      intro a ha
      rw [if_neg]
      · rfl
      · intro hbeq
        exact hxp (beq_iff_eq.1 hbeq ▸ List.mem_map_of_mem (fun z => z.day) ha)
    · simp [hd]

/-- Upserts on distinct days commute, provided the first day is already
present (which keeps both orders in-place). -/
theorem upsert_commute (S : List DailyRecord) (r x : DailyRecord)
    (hrp : r.day ∈ daysOf S) (hne : x.day ≠ r.day) :
    upsert_daily (upsert_daily S r) x = upsert_daily (upsert_daily S x) r := by
  by_cases hxp : x.day ∈ daysOf S
  · rw [upsert_present S r hrp, upsert_present S x hxp]
    have h1 : x.day ∈ daysOf (S.map (fun y => if y.day == r.day then r else y)) := by
      rw [replace_daysOf S r]; exact hxp
    have h2 : r.day ∈ daysOf (S.map (fun y => if y.day == x.day then x else y)) := by
      rw [replace_daysOf S x]; exact hrp
    rw [upsert_present _ x h1, upsert_present _ r h2, List.map_map, List.map_map]
    apply List.map_congr_left
    intro a _
    simp only [Function.comp]
    by_cases ha1 : a.day = r.day
    · have ha2 : ¬a.day = x.day := fun h => hne (h ▸ ha1)
      have e1 : (if (a.day == r.day) = true then r else a) = r := if_pos (beq_iff_eq.2 ha1)
      have e2 : (if (a.day == x.day) = true then x else a) = a := if_neg (by simpa using ha2)
      rw [e1, e2, if_neg (fun hb => hne (beq_iff_eq.1 hb).symm), if_pos (beq_iff_eq.2 ha1)]
    · by_cases ha2 : a.day = x.day
      · have e1 : (if (a.day == r.day) = true then r else a) = a := if_neg (by simpa using ha1)
        have e2 : (if (a.day == x.day) = true then x else a) = x := if_pos (beq_iff_eq.2 ha2)
        rw [e1, e2, if_neg (by simpa using hne)]
      · have e1 : (if (a.day == r.day) = true then r else a) = a := if_neg (by simpa using ha1)
        have e2 : (if (a.day == x.day) = true then x else a) = a := if_neg (by simpa using ha2)
        rw [e1, e2, e1]
  · rw [upsert_present S r hrp]
    have h1 : x.day ∉ daysOf (S.map (fun y => if y.day == r.day then r else y)) := by
      rw [replace_daysOf S r]; exact hxp
    rw [upsert_absent _ x h1, upsert_absent S x hxp]
    have h2 : r.day ∈ daysOf (S ++ [x]) := by
      unfold daysOf
      rw [List.map_append]
      exact List.mem_append_left _ hrp
    rw [upsert_present _ r h2, List.map_append]
    congr 1
    simp [hne]

/-- An upsert on a different day preserves "every row on day `r.day` is
`r`". -/
theorem upsert_preserves_allEq (T : List DailyRecord) (r c : DailyRecord)
    (h : ∀ x ∈ T, x.day = r.day → x = r) (hne : c.day ≠ r.day) :
    ∀ x ∈ upsert_daily T c, x.day = r.day → x = r := by
  intro x hx hd
  unfold upsert_daily at hx
  split_ifs at hx with hp
  · rw [List.mem_map] at hx
    obtain ⟨y, hy, hyx⟩ := hx
    by_cases hyc : y.day = c.day
    · rw [if_pos (by simpa using hyc)] at hyx
      exact absurd (hyx ▸ hd) hne
    · rw [if_neg (by simpa using hyc)] at hyx
      subst hyx
      exact h y hy hd
  · rw [List.mem_append] at hx
    rcases hx with hx | hx
    · exact h x hx hd
    · have : x = c := by simpa using hx
      exact absurd (this ▸ hd) hne

/-- `applyUpserts` away from day `r.day` preserves "every row on day
`r.day` is `r`". -/
theorem applyUpserts_preserves_allEq :
    ∀ (rs : List DailyRecord) (T : List DailyRecord) (r : DailyRecord),
      (∀ c ∈ rs, c.day ≠ r.day) → (∀ x ∈ T, x.day = r.day → x = r) →
      ∀ x ∈ applyUpserts T rs, x.day = r.day → x = r := by
  intro rs
  induction rs with
  | nil =>
    intro T r _ h
    exact h
  | cons c rs' ih =>
    intro T r hne h
    exact ih (upsert_daily T c) r (fun c' hc' => hne c' (List.mem_cons_of_mem _ hc'))
      (upsert_preserves_allEq T r c h (hne c (List.mem_cons_self c rs')))

/-- `applyUpserts` never removes a day. -/
theorem applyUpserts_daysOf_mono :
    ∀ (rs : List DailyRecord) (T : List DailyRecord) (d : Int),
      d ∈ daysOf T → d ∈ daysOf (applyUpserts T rs) := by
  intro rs
  induction rs with
  | nil =>
    intro T d h
    exact h
  | cons c rs' ih =>
    intro T d h
    exact ih (upsert_daily T c) d (upsert_daysOf_mono T c d h)

/-- Absorption: a leading upsert is swallowed by a later upsert-sequence
when either the sequence writes that day again, or the store already
holds exactly that record on that day. -/
theorem applyUpserts_absorb :
    ∀ (rs : List DailyRecord) (T : List DailyRecord) (r : DailyRecord),
      r.day ∈ daysOf T →
      ((∃ c ∈ rs, c.day = r.day) ∨ ∀ x ∈ T, x.day = r.day → x = r) →
      applyUpserts (upsert_daily T r) rs = applyUpserts T rs := by
  intro rs
  induction rs with
  | nil =>
    intro T r hp hdisj
    rcases hdisj with ⟨c, hc, _⟩ | hall
    · exact absurd hc (List.not_mem_nil c)
    · exact upsert_noop T r hp hall
  | cons c rs' ih =>
    intro T r hp hdisj
    show applyUpserts (upsert_daily (upsert_daily T r) c) rs'
      = applyUpserts (upsert_daily T c) rs'
    by_cases hc : c.day = r.day
    · rw [upsert_collapse T r c hc]
    · rw [upsert_commute T r c hp hc]
      apply ih (upsert_daily T c) r (upsert_daysOf_mono T c r.day hp)
      rcases hdisj with ⟨c', hc', hday⟩ | hall
      · rcases List.mem_cons.1 hc' with rfl | hmem
        · exact absurd hday hc
        · exact Or.inl ⟨c', hmem, hday⟩
      · exact Or.inr (upsert_preserves_allEq T r c hall hc)

/-- Re-applying the same upsert sequence is a no-op: the log table after
two identical import passes equals the table after one. -/
theorem applyUpserts_idem :
    ∀ (rs : List DailyRecord) (S : List DailyRecord),
      applyUpserts (applyUpserts S rs) rs = applyUpserts S rs := by
  intro rs
  induction rs with
  | nil =>
    intro S
    rfl
  | cons r rs' ih =>
    intro S
    show applyUpserts (upsert_daily (applyUpserts (upsert_daily S r) rs') r) rs'
      = applyUpserts (upsert_daily S r) rs'
    have hp : r.day ∈ daysOf (applyUpserts (upsert_daily S r) rs') :=
      applyUpserts_daysOf_mono rs' (upsert_daily S r) r.day (upsert_day_self S r)
    have habs :
        applyUpserts (upsert_daily (applyUpserts (upsert_daily S r) rs') r) rs'
          = applyUpserts (applyUpserts (upsert_daily S r) rs') rs' := by
      apply applyUpserts_absorb rs' _ r hp
      by_cases hw : ∃ c ∈ rs', c.day = r.day
      · exact Or.inl hw
      · push_neg at hw
        exact Or.inr (applyUpserts_preserves_allEq rs' (upsert_daily S r) r hw
          (upsert_allEq S r))
    rw [habs, ih (upsert_daily S r)]

/-! ### Photo-loop counting, toward import additivity -/

/-- Whether the import loop will call `add_photo` for an archive entry of
this name: under `photos/`, not a directory, at least three path
components. -/
def photoEntryRelevant (name : String) : Bool :=
  pyStartsWith "photos/" name && !pyEndsWith "/" name &&
    decide (3 ≤ (pySplit '/' name.toList).length)

/-- How many archive entries the photo phase of one import inserts. -/
def photoAddCount (A : Archive) : Nat :=
  A.files.countP (fun e => photoEntryRelevant e.1)

/-- When every relevant blob is within the size cap, the photo phase
succeeds and inserts exactly one row per relevant entry. -/
theorem importPhotosLoop_count :
    ∀ (files : List (String × List Nat)) (p : PhotoStore) (today : String),
      (∀ e ∈ files, photoEntryRelevant e.1 = true → e.2.length ≤ 3000000) →
      (importPhotosLoop today p files).2 = true ∧
      (importPhotosLoop today p files).1.rows.length
        = p.rows.length + files.countP (fun e => photoEntryRelevant e.1) := by
  intro files
  induction files with
  | nil =>
    intro p today _
    exact ⟨rfl, by simp [importPhotosLoop]⟩
  | cons e rest ih =>
    intro p today hsz
    obtain ⟨name, blob⟩ := e
    have hszrest : ∀ e ∈ rest, photoEntryRelevant e.1 = true → e.2.length ≤ 3000000 :=
      fun e he => hsz e (List.mem_cons_of_mem _ he)
    by_cases hc : (pyStartsWith "photos/" name && !pyEndsWith "/" name) = true
    · rcases hparts : pySplit '/' name.toList with _ | ⟨p0, _ | ⟨p1, _ | ⟨p2, tail⟩⟩⟩
      · have hrel : photoEntryRelevant name = false := by
          unfold photoEntryRelevant
          rw [hc, hparts]
          simp
        simp only [importPhotosLoop, hc, if_true, hparts, List.countP_cons, hrel]
        simpa using ih p today hszrest
      · have hrel : photoEntryRelevant name = false := by
          unfold photoEntryRelevant
          rw [hc, hparts]
          simp
        simp only [importPhotosLoop, hc, if_true, hparts, List.countP_cons, hrel]
        simpa using ih p today hszrest
      · have hrel : photoEntryRelevant name = false := by
          unfold photoEntryRelevant
          rw [hc, hparts]
          simp
        simp only [importPhotosLoop, hc, if_true, hparts, List.countP_cons, hrel]
        simpa using ih p today hszrest
      · have hrel : photoEntryRelevant name = true := by
          unfold photoEntryRelevant
          rw [hc, hparts]
          simp only [List.length_cons, Bool.true_and, decide_eq_true_eq]
          omega
        have hblob : blob.length ≤ 3000000 :=
          hsz (name, blob) (List.mem_cons_self _ _) hrel
        have hadd : ∀ (day kind fn mime : String),
            add_photo p day kind fn mime blob =
              Except.ok { nextId := p.nextId + 1
                        , rows := p.rows ++
                            [⟨p.nextId, day, kind, fn, mime, b64encode blob⟩] } := by
          intro day kind fn mime
          unfold add_photo
          rw [if_neg (by omega)]
        simp only [importPhotosLoop, hc, if_true, hparts, List.countP_cons, hrel, hadd]
        have := ih { nextId := p.nextId + 1
                   , rows := p.rows ++
                       [⟨p.nextId,
                         if ((pySplit '_' p2).headD []).length = 10
                           then ((pySplit '_' p2).headD []).asString else today,
                         p1.asString, basenamePy name, "image/jpeg", b64encode blob⟩] }
          today hszrest
        constructor
        · exact this.1
        · rw [this.2]
          simp [List.length_append]
          omega
    · have hcf : (pyStartsWith "photos/" name && !pyEndsWith "/" name) = false := by
        simpa using hc
      have hrel : photoEntryRelevant name = false := by
        unfold photoEntryRelevant
        rw [hcf]
        simp
      simp only [importPhotosLoop, hc, if_false, List.countP_cons, hrel]
      simpa using ih p today hszrest

/-- The log table an import produces (projection helper). -/
theorem importZip_log (A : Archive) (L : List DailyRecord) (P : PhotoStore) (today : String) :
    (importZip A L P today).log =
      match A.logRows with
      | some rows => importLogRows L rows
      | none => L := rfl

/-- The photo table an import produces (projection helper). -/
theorem importZip_photos (A : Archive) (L : List DailyRecord) (P : PhotoStore) (today : String) :
    (importZip A L P today).photos = (importPhotosLoop today P A.files).1 := rfl

/-- Claim C8: importing the same archive twice is idempotent for the log
store — the second pass re-applies the same upserts and leaves the table
exactly as after the first pass — and additive for photos: each pass
inserts one fresh row per relevant archive entry, so the photo row count
grows by `photoAddCount A` again (doubling when the store started
empty).  The size hypothesis rules out the mid-loop abort that a
cap-violating blob would cause. -/
theorem C8_import_twice (A : Archive) (L0 : List DailyRecord) (P0 : PhotoStore) (today : String)
    (hsz : ∀ e ∈ A.files, photoEntryRelevant e.1 = true → e.2.length ≤ 3000000) :
    (importZip A (importZip A L0 P0 today).log (importZip A L0 P0 today).photos today).log
      = (importZip A L0 P0 today).log ∧
    (importZip A (importZip A L0 P0 today).log
        (importZip A L0 P0 today).photos today).photos.rows.length
      = (importZip A L0 P0 today).photos.rows.length + photoAddCount A := by
  constructor
  · rw [importZip_log, importZip_log]
    cases hA : A.logRows with
    | none => rfl
    | some rows =>
      simp only []
      rw [importLogRows_eq_applyUpserts, importLogRows_eq_applyUpserts]
      exact applyUpserts_idem (rows.map csvToRecord) L0
  · rw [importZip_photos, importZip_photos]
    exact (importPhotosLoop_count A.files (importPhotosLoop today P0 A.files).1 today hsz).2

/-- A tiny concrete archive: one log row and one photo entry. -/
def sampleArchive : Archive :=
  ⟨some [⟨1, true, false, false, false, "hi"⟩], [("photos/before/2024-01-01_1.jpg", [7, 8])]⟩

/-- Witness for `C8_import_twice` on `sampleArchive` into fresh stores. -/
theorem C8_import_twice_witness :
    (∀ e ∈ sampleArchive.files, photoEntryRelevant e.1 = true → e.2.length ≤ 3000000) ∧
    (importZip sampleArchive (importZip sampleArchive [] PhotoStore.empty "2024-01-02").log
        (importZip sampleArchive [] PhotoStore.empty "2024-01-02").photos "2024-01-02").log
      = (importZip sampleArchive [] PhotoStore.empty "2024-01-02").log :=
  ⟨by decide,
    (C8_import_twice sampleArchive [] PhotoStore.empty "2024-01-02" (by decide)).1⟩

/-! ### Claim C1: the export/import round trip -/

instance {ε α : Type} [DecidableEq ε] [DecidableEq α] : DecidableEq (Except ε α) := fun a b =>
  match a, b with
  | .error e, .error f =>
    if h : e = f then isTrue (by rw [h]) else isFalse (by intro hh; cases hh; exact h rfl)
  | .error _, .ok _ => isFalse (by intro h; cases h)
  | .ok _, .error _ => isFalse (by intro h; cases h)
  | .ok x, .ok y =>
    if h : x = y then isTrue (by rw [h]) else isFalse (by intro hh; cases hh; exact h rfl)

/-- A photo store holding one PNG photo (the state `add_photo` produces
from a fresh store). -/
def samplePngStore : PhotoStore :=
  ⟨2, [⟨1, "2024-01-05", "before", "a.png", "image/png", [1, 2, 3]⟩]⟩

/-- A one-day log whose notes are empty. -/
def sampleEmptyNotesLog : List DailyRecord := [⟨0, true, false, false, false, ""⟩]

/-- Counterexample to claim C1 as stated: round-tripping a store that
holds a PNG photo (reachable by a single `add_photo`) and a log row with
empty notes does not reproduce the photo's mime — the importer hardcodes
`image/jpeg` (app.py line 311) — and does not reproduce the notes — the
empty CSV field reads back as NaN and is stored as the string `"nan"`. -/
theorem C1_roundtrip_counterexample :
    (add_photo PhotoStore.empty "2024-01-05" "before" "a.png" "image/png" [1, 2, 3]
      = Except.ok samplePngStore) ∧
    (importZip (exportZip sampleEmptyNotesLog samplePngStore) [] PhotoStore.empty
        "2024-01-06").photos.rows.map (fun r => r.mime) = ["image/jpeg"] ∧
    samplePngStore.rows.map (fun r => r.mime) = ["image/png"] ∧
    (importZip (exportZip sampleEmptyNotesLog samplePngStore) [] PhotoStore.empty
        "2024-01-06").log.map (fun r => r.notes) = ["nan"] ∧
    sampleEmptyNotesLog.map (fun r => r.notes) = [""] := by
  decide

/-- `Nat.digitChar` of a value below ten is a decimal digit. -/
theorem digitChar_isDigit (m : Nat) (h : m < 10) : (Nat.digitChar m).isDigit = true := by
  interval_cases m <;> decide

/-- Every character `Nat.toDigitsCore` emits over base ten is a decimal
digit (given a digit-only accumulator). -/
theorem toDigitsCore_digits :
    ∀ (fuel n : Nat) (acc : List Char), (∀ c ∈ acc, c.isDigit = true) →
      ∀ c ∈ Nat.toDigitsCore 10 fuel n acc, c.isDigit = true := by
  intro fuel
  induction fuel with
  | zero =>
    intro n acc hacc c hc
    exact hacc c hc
  | succ fuel ih =>
    intro n acc hacc c hc
    unfold Nat.toDigitsCore at hc
    simp only [] at hc
    have hdig : ∀ c' ∈ Nat.digitChar (n % 10) :: acc, c'.isDigit = true := by
      intro c' hc'
      rcases List.mem_cons.1 hc' with rfl | hmem
      · exact digitChar_isDigit _ (Nat.mod_lt _ (by norm_num))
      · exact hacc c' hmem
    split_ifs at hc with hz
    · exact hdig c hc
    · exact ih (n / 10) (Nat.digitChar (n % 10) :: acc) hdig c hc

/-- Every character of `Nat.repr` is a decimal digit. -/
theorem repr_isDigit (n : Nat) : ∀ c ∈ (Nat.repr n).toList, c.isDigit = true := by
  intro c hc
  have hrepr : (Nat.repr n).toList = Nat.toDigits 10 n := rfl
  rw [hrepr] at hc
  exact toDigitsCore_digits (n + 1) n [] (by simp) c hc

/-- The extension `extOf` extracts is made of a dot and characters of the
filename. -/
theorem extOf_subset (l : List Char) : ∀ c ∈ extOf l, c = '.' ∨ c ∈ l := by
  intro c hc
  unfold extOf at hc
  split_ifs at hc with h1 h2
  · exact absurd hc (List.not_mem_nil c)
  · exact absurd hc (List.not_mem_nil c)
  · rcases List.mem_cons.1 hc with rfl | hmem
    · exact Or.inl rfl
    · right
      rw [← List.mem_reverse]
      exact List.takeWhile_subset _ (List.mem_reverse.1 hmem)

/-- One unfolding step of `pySplit`. -/
theorem pySplit_cons (c a : Char) (rest : List Char) :
    pySplit c (a :: rest) =
      match pySplit c rest with
      | [] => [[]]
      | h :: t => if a = c then [] :: h :: t else (a :: h) :: t := rfl

/-- `pySplit` always yields at least one piece. -/
theorem pySplit_ne_nil (c : Char) : ∀ (y : List Char), pySplit c y ≠ [] := by
  intro y
  cases y with
  | nil => simp [pySplit]
  | cons a t =>
    rw [pySplit_cons]
    rcases pySplit c t with _ | ⟨h, tl⟩
    · simp
    · split_ifs <;> simp

/-- Splitting a separator-free list yields the single piece. -/
theorem pySplit_no_sep (c : Char) : ∀ (x : List Char), c ∉ x → pySplit c x = [x] := by
  intro x
  induction x with
  | nil =>
    intro _
    rfl
  | cons a t ih =>
    intro h
    have hat : c ∉ t := fun hm => h (List.mem_cons_of_mem _ hm)
    have hne : ¬a = c := fun he => h (he ▸ List.mem_cons_self a t)
    rw [pySplit_cons, ih hat]
    simp [hne]

/-- Splitting past a separator-free head piece. -/
theorem pySplit_sep_append (c : Char) :
    ∀ (x y : List Char), c ∉ x → pySplit c (x ++ c :: y) = x :: pySplit c y := by
  intro x
  induction x with
  | nil =>
    intro y _
    show pySplit c (c :: y) = [] :: pySplit c y
    rw [pySplit_cons]
    rcases h : pySplit c y with _ | ⟨hh, tt⟩
    · exact absurd h (pySplit_ne_nil c y)
    · simp [h]
  | cons a t ih =>
    intro y h
    have hat : c ∉ t := fun hm => h (List.mem_cons_of_mem _ hm)
    have hne : ¬a = c := fun he => h (he ▸ List.mem_cons_self a t)
    rw [show (a :: t) ++ c :: y = a :: (t ++ c :: y) from rfl, pySplit_cons, ih y hat]
    simp [hne]

/-- A well-formed photo day key: an ISO `YYYY-MM-DD` string is 10
characters and contains neither `_` nor `/`. -/
def validDayString (s : String) : Prop :=
  s.length = 10 ∧ '_' ∉ s.toList ∧ '/' ∉ s.toList

instance (s : String) : Decidable (validDayString s) := by
  unfold validDayString
  infer_instance

/-- Store invariants of a photo row: valid day key, no `/` in kind or
filename (the app only ever stores kinds `before`/`after`/`weekly` and
upload basenames), and bytes within the cap `add_photo` enforces. -/
def photoRowWellFormed (r : PhotoRow) : Prop :=
  validDayString r.day ∧ '/' ∉ r.kind.toList ∧ '/' ∉ r.filename.toList ∧
    r.data_b64.length ≤ 3000000

instance (r : PhotoRow) : Decidable (photoRowWellFormed r) := by
  unfold photoRowWellFormed
  infer_instance

/-- Store invariants of the photo table. -/
def photoWellFormed (P : PhotoStore) : Prop := ∀ r ∈ P.rows, photoRowWellFormed r

instance (P : PhotoStore) : Decidable (photoWellFormed P) := by
  unfold photoWellFormed
  infer_instance

/-- Store invariants of the log table: `day` is a primary key, and notes
survive the CSV round trip (see `notesSafe`). -/
def logWellFormed (L : List DailyRecord) : Prop :=
  (L.map (fun r => r.day)).Nodup ∧ ∀ r ∈ L, notesSafe r.notes

instance (L : List DailyRecord) : Decidable (logWellFormed L) := by
  unfold logWellFormed
  infer_instance

/-- The last path component the export writes for a photo:
`{day}_{id}{ext}`. -/
def dayIdExt (r : PhotoRow) : String :=
  r.day ++ "_" ++ Nat.repr r.id ++ photoExt r

/-- `photoPath` in terms of its three components. -/
theorem photoPath_toList (r : PhotoRow) :
    (photoPath r).toList =
      "photos".toList ++ '/' :: (r.kind.toList ++ '/' :: (dayIdExt r).toList) := by
  show (photoPath r).data = "photos".data ++ '/' :: (r.kind.data ++ '/' :: (dayIdExt r).data)
  unfold photoPath dayIdExt
  simp only [String.data_append]
  simp [List.append_assoc]

/-- Characters of the last path component: the day, an underscore, the
id digits, and the extension. -/
theorem dayIdExt_toList (r : PhotoRow) :
    (dayIdExt r).toList =
      r.day.toList ++ '_' :: ((Nat.repr r.id).toList ++ (photoExt r).toList) := by
  show (dayIdExt r).data = r.day.data ++ '_' :: ((Nat.repr r.id).data ++ (photoExt r).data)
  unfold dayIdExt
  simp only [String.data_append]
  simp [List.append_assoc]

/-- No `/` occurs in a well-formed row's extension. -/
theorem photoExt_no_slash (r : PhotoRow) (hday : '/' ∉ r.day.toList)
    (hkind : '/' ∉ r.kind.toList) (hfn : '/' ∉ r.filename.toList) :
    '/' ∉ (photoExt r).toList := by
  unfold photoExt
  split_ifs with h
  · decide
  · intro hc
    rw [List.toList_asString] at hc
    rcases extOf_subset _ _ hc with he | he
    · exact absurd he (by decide)
    · unfold effFilename at he
      split_ifs at he with hfe
      · simp only [String.toList, String.data_append, List.mem_append] at he
        rcases he with ((((h4 | h4) | h4) | h4) | h4) | h4
        · exact hkind h4
        · exact absurd h4 (by decide)
        · exact hday h4
        · exact absurd h4 (by decide)
        · exact absurd (repr_isDigit r.id '/' h4) (by decide)
        · exact absurd h4 (by decide)
      · exact hfn he

/-- No `/` occurs in a well-formed row's last path component. -/
theorem dayIdExt_no_slash (r : PhotoRow) (hday : '/' ∉ r.day.toList)
    (hkind : '/' ∉ r.kind.toList) (hfn : '/' ∉ r.filename.toList) :
    '/' ∉ (dayIdExt r).toList := by
  rw [dayIdExt_toList]
  intro hc
  rcases List.mem_append.1 hc with h1 | h1
  · exact hday h1
  · rcases List.mem_cons.1 h1 with h2 | h2
    · exact absurd h2 (by decide)
    · rcases List.mem_append.1 h2 with h3 | h3
      · exact absurd (repr_isDigit r.id '/' h3) (by decide)
      · exact photoExt_no_slash r hday hkind hfn h3

/-- A well-formed row's last path component is nonempty. -/
theorem dayIdExt_ne_nil (r : PhotoRow) (hlen : r.day.length = 10) :
    (dayIdExt r).toList ≠ [] := by
  rw [dayIdExt_toList]
  intro h
  have : r.day.toList = [] := by
    cases hd : r.day.toList
    · rfl
    · rw [hd] at h
      simp at h
  have hl : r.day.toList.length = 10 := hlen ▸ rfl
  rw [this] at hl
  simp at hl

/-- A list always begins with itself. -/
theorem startsWithL_self_append : ∀ (p s : List Char), startsWithL p (p ++ s) = true := by
  intro p
  induction p with
  | nil =>
    intro s
    rfl
  | cons a t ih =>
    intro s
    simp [startsWithL, ih]

/-- A one-character pattern mismatches a list with a different head. -/
theorem startsWithL_single_false (c d : Char) (t : List Char) (h : ¬c = d) :
    startsWithL [c] (d :: t) = false := by
  simp [startsWithL, h]

/-- Export photo paths start with `photos/`. -/
theorem photoPath_startsWith (r : PhotoRow) : pyStartsWith "photos/" (photoPath r) = true := by
  unfold pyStartsWith
  rw [photoPath_toList, List.append_cons "photos".toList '/' _,
    show "photos".toList ++ ['/'] = ("photos/" : String).toList from by decide]
  exact startsWithL_self_append _ _

/-- Export photo paths do not end with `/`. -/
theorem photoPath_not_endsWith (r : PhotoRow) (hnos : '/' ∉ (dayIdExt r).toList)
    (hne : (dayIdExt r).toList ≠ []) : pyEndsWith "/" (photoPath r) = false := by
  unfold pyEndsWith
  rw [photoPath_toList]
  rcases hD : (dayIdExt r).toList.reverse with _ | ⟨d, t⟩
  · exact absurd (List.reverse_eq_nil_iff.1 hD) hne
  · have hd_mem : d ∈ (dayIdExt r).toList := by
      rw [← List.mem_reverse, hD]
      exact List.mem_cons_self _ _
    have hdne : ¬('/' = d) := fun h => hnos (h ▸ hd_mem)
    have hshape : "photos".toList ++ '/' :: (r.kind.toList ++ '/' :: (dayIdExt r).toList)
        = ("photos".toList ++ '/' :: r.kind.toList ++ ['/']) ++ (dayIdExt r).toList := by
      simp
    rw [hshape, List.reverse_append, hD,
      show ("/" : String).toList.reverse = ['/'] from rfl,
      show (d :: t) ++ ("photos".toList ++ '/' :: r.kind.toList ++ ['/']).reverse
        = d :: (t ++ ("photos".toList ++ '/' :: r.kind.toList ++ ['/']).reverse) from rfl]
    exact startsWithL_single_false '/' d _ hdne

/-- Splitting an export photo path on `/` yields its three components. -/
theorem photoPath_split (r : PhotoRow) (hkind : '/' ∉ r.kind.toList)
    (hnos : '/' ∉ (dayIdExt r).toList) :
    pySplit '/' (photoPath r).toList
      = ["photos".toList, r.kind.toList, (dayIdExt r).toList] := by
  rw [photoPath_toList, pySplit_sep_append _ _ _ (by decide),
    pySplit_sep_append _ _ _ hkind, pySplit_no_sep _ _ hnos]

/-- The day guessed from an export path's last component is the day. -/
theorem dayIdExt_guess (r : PhotoRow) (hund : '_' ∉ r.day.toList) :
    (pySplit '_' (dayIdExt r).toList).headD [] = r.day.toList := by
  rw [dayIdExt_toList, pySplit_sep_append _ _ _ hund]
  rfl

/-- The basename of an export photo path is its last component. -/
theorem photoPath_basename (r : PhotoRow) (hkind : '/' ∉ r.kind.toList)
    (hnos : '/' ∉ (dayIdExt r).toList) : basenamePy (photoPath r) = dayIdExt r := by
  unfold basenamePy
  rw [photoPath_split r hkind hnos]
  exact String.asString_toList _

/-- One import step on an exported photo entry: the entry parses back to
its day and kind, and `add_photo` stores its bytes under the next id,
with the derived basename as filename and the hardcoded `image/jpeg`
mime. -/
theorem import_step_export (today : String) (p : PhotoStore) (r : PhotoRow)
    (hr : photoRowWellFormed r) (rest : List (String × List Nat)) :
    importPhotosLoop today p ((photoPath r, b64decode r.data_b64) :: rest)
      = importPhotosLoop today
          { nextId := p.nextId + 1
          , rows := p.rows ++ [⟨p.nextId, r.day, r.kind, dayIdExt r, "image/jpeg", r.data_b64⟩] }
          rest := by
  obtain ⟨⟨hlen, hund, hslash⟩, hkind, hfn, hsize⟩ := hr
  have hnos : '/' ∉ (dayIdExt r).toList := dayIdExt_no_slash r hslash hkind hfn
  have hcond : (pyStartsWith "photos/" (photoPath r) && !pyEndsWith "/" (photoPath r)) = true := by
    rw [photoPath_startsWith r, photoPath_not_endsWith r hnos (dayIdExt_ne_nil r hlen)]
    rfl
  have hsplit := photoPath_split r hkind hnos
  have hguess := dayIdExt_guess r hund
  have hbase := photoPath_basename r hkind hnos
  simp only [importPhotosLoop, hcond, if_true, hsplit, hguess, String.asString_toList, hbase]
  have hlen' : (r.day.toList).length = 10 := hlen
  rw [if_pos hlen']
  have hsize' : (b64decode r.data_b64).length ≤ 3000000 := hsize
  rw [show add_photo p r.day r.kind (dayIdExt r) "image/jpeg" (b64decode r.data_b64)
      = Except.ok { nextId := p.nextId + 1
                  , rows := p.rows ++ [⟨p.nextId, r.day, r.kind, dayIdExt r,
                      "image/jpeg", b64encode (b64decode r.data_b64)⟩] } from by
    unfold add_photo
    rw [if_neg (by omega)]]
  rfl

/-- The rows one import pass creates from exported photo rows: ids
sequential from `startId`, day/kind/bytes copied, filename the derived
archive basename, mime hardcoded `image/jpeg`. -/
def transformRows (startId : Nat) : List PhotoRow → List PhotoRow
  | [] => []
  | r :: rest =>
    ⟨startId, r.day, r.kind, dayIdExt r, "image/jpeg", r.data_b64⟩ :: transformRows (startId + 1) rest

/-- Importing the exported photo entries succeeds and appends exactly the
transformed rows. -/
theorem importPhotosLoop_export :
    ∀ (rows : List PhotoRow) (p : PhotoStore) (today : String),
      (∀ r ∈ rows, photoRowWellFormed r) →
      importPhotosLoop today p (rows.map (fun r => (photoPath r, b64decode r.data_b64)))
        = ({ nextId := p.nextId + rows.length
           , rows := p.rows ++ transformRows p.nextId rows }, true) := by
  intro rows
  induction rows with
  | nil =>
    intro p today _
    show (p, true) = _
    simp [transformRows]
  | cons r rest ih =>
    intro p today h
    rw [List.map_cons,
      import_step_export today p r (h r (List.mem_cons_self r rest)) _,
      ih _ today (fun x hx => h x (List.mem_cons_of_mem _ hx))]
    simp only [transformRows, List.length_cons, List.append_assoc, List.singleton_append]
    rw [show p.nextId + 1 + rest.length = p.nextId + (rest.length + 1) from by omega]

/-- The transformed rows keep each row's `(day, kind, bytes)`. -/
theorem transformRows_view :
    ∀ (n : Nat) (rows : List PhotoRow),
      (transformRows n rows).map (fun r => (r.day, r.kind, r.data_b64))
        = rows.map (fun r => (r.day, r.kind, r.data_b64)) := by
  intro n rows
  induction rows generalizing n with
  | nil => rfl
  | cons r rest ih => simp [transformRows, ih]

/-- Every transformed row carries the hardcoded import mime. -/
theorem transformRows_mime :
    ∀ (n : Nat) (rows : List PhotoRow), ∀ x ∈ transformRows n rows, x.mime = "image/jpeg" := by
  intro n rows
  induction rows generalizing n with
  | nil =>
    intro x hx
    exact absurd hx (List.not_mem_nil x)
  | cons r rest ih =>
    intro x hx
    rcases List.mem_cons.1 hx with rfl | hmem
    · rfl
    · exact ih (n + 1) x hmem

/-- Transformed ids start at the given counter. -/
theorem transformRows_id_ge :
    ∀ (n : Nat) (rows : List PhotoRow), ∀ x ∈ transformRows n rows, n ≤ x.id := by
  intro n rows
  induction rows generalizing n with
  | nil =>
    intro x hx
    exact absurd hx (List.not_mem_nil x)
  | cons r rest ih =>
    intro x hx
    rcases List.mem_cons.1 hx with rfl | hmem
    · exact Nat.le_refl n
    · exact Nat.le_of_succ_le (ih (n + 1) x hmem)

/-- Each transformed row's day is one of the source days. -/
theorem transformRows_day_mem :
    ∀ (n : Nat) (rows : List PhotoRow) (x : PhotoRow), x ∈ transformRows n rows →
      ∃ y ∈ rows, x.day = y.day := by
  intro n rows
  induction rows generalizing n with
  | nil =>
    intro x hx
    exact absurd hx (List.not_mem_nil x)
  | cons r rest ih =>
    intro x hx
    rcases List.mem_cons.1 hx with rfl | hmem
    · exact ⟨r, List.mem_cons_self r rest, rfl⟩
    · obtain ⟨y, hy, hday⟩ := ih (n + 1) x hmem
      exact ⟨y, List.mem_cons_of_mem _ hy, hday⟩

/-- Day-sorted source rows transform into `(day, id)`-sorted rows, since
ids are assigned in increasing order. -/
theorem transformRows_pairwise :
    ∀ (n : Nat) (rows : List PhotoRow),
      List.Pairwise (fun a b : PhotoRow => a.day < b.day ∨ a.day = b.day) rows →
      List.Pairwise photoLe (transformRows n rows) := by
  intro n rows
  induction rows generalizing n with
  | nil =>
    intro _
    exact List.Pairwise.nil
  | cons r rest ih =>
    intro h
    rcases List.pairwise_cons.1 h with ⟨hhead, htail⟩
    refine List.pairwise_cons.2 ⟨?_, ih (n + 1) htail⟩
    intro x hx
    obtain ⟨y, hy, hday⟩ := transformRows_day_mem (n + 1) rest x hx
    have hid : n + 1 ≤ x.id := transformRows_id_ge (n + 1) rest x hx
    rcases hhead y hy with hlt | heq
    · exact Or.inl (hday ▸ hlt)
    · refine Or.inr ⟨(hday ▸ heq : r.day = x.day), ?_⟩
      show n ≤ x.id
      omega

instance : IsTotal PhotoRow photoLe := by
  constructor
  intro a b
  unfold photoLe
  rcases lt_trichotomy a.day b.day with h | h | h
  · exact Or.inl (Or.inl h)
  · rcases Nat.le_total a.id b.id with hid | hid
    · exact Or.inl (Or.inr ⟨h, hid⟩)
    · exact Or.inr (Or.inr ⟨h.symm, hid⟩)
  · exact Or.inr (Or.inl h)

instance : IsTrans PhotoRow photoLe := by
  constructor
  intro a b c hab hbc
  unfold photoLe at *
  rcases hab with hab | ⟨hab, haid⟩
  · rcases hbc with hbc | ⟨hbc, _⟩
    · exact Or.inl (lt_trans hab hbc)
    · exact Or.inl (hbc ▸ hab)
  · rcases hbc with hbc | ⟨hbc, hbid⟩
    · exact Or.inl (hab ▸ hbc)
    · exact Or.inr ⟨hab.trans hbc, le_trans haid hbid⟩

instance : IsTotal DailyRecord dayLe := by
  constructor
  intro a b
  unfold dayLe
  exact Int.le_total a.day b.day

instance : IsTrans DailyRecord dayLe := by
  constructor
  intro a b c hab hbc
  unfold dayLe at *
  exact le_trans hab hbc

/-- `photoLe` forgets to non-strict day order. -/
theorem photoLe_imp_day (a b : PhotoRow) (h : photoLe a b) :
    a.day < b.day ∨ a.day = b.day := by
  rcases h with h | ⟨h, _⟩
  · exact Or.inl h
  · exact Or.inr h

/-- Upserting records with fresh, pairwise-distinct days appends them in
order. -/
theorem applyUpserts_fresh :
    ∀ (rs : List DailyRecord) (S : List DailyRecord),
      (∀ r ∈ rs, r.day ∉ daysOf S) → (rs.map (fun r => r.day)).Nodup →
      applyUpserts S rs = S ++ rs := by
  intro rs
  induction rs with
  | nil =>
    intro S _ _
    simp [applyUpserts]
  | cons r rest ih =>
    intro S hfresh hnd
    rw [List.map_cons, List.nodup_cons] at hnd
    show applyUpserts (upsert_daily S r) rest = S ++ r :: rest
    rw [upsert_absent S r (hfresh r (List.mem_cons_self r rest))]
    rw [ih (S ++ [r]) ?_ hnd.2]
    · simp
    · intro x hx
      unfold daysOf
      rw [List.map_append, List.mem_append]
      rintro (h1 | h1)
      · exact hfresh x (List.mem_cons_of_mem _ hx) h1
      · simp only [List.map_cons, List.map_nil, List.mem_singleton] at h1
        exact hnd.1 (h1 ▸ List.mem_map_of_mem (fun y => y.day) hx)

/-- A safe-notes record survives CSV serialization and re-import. -/
theorem csv_roundtrip_record (r : DailyRecord) (h : notesSafe r.notes) :
    csvToRecord (toCsvRow r) = r := by
  unfold csvToRecord toCsvRow csvNotes
  rw [if_neg h.1]

/-- Sorting is idempotent. -/
theorem get_all_daily_idem (L : List DailyRecord) :
    get_all_daily (get_all_daily L) = get_all_daily L := by
  unfold get_all_daily
  exact List.Sorted.insertionSort_eq (List.sorted_insertionSort dayLe L)

/-- Claim C1 (amended): exporting and importing into fresh empty stores
reproduces the log store's days and action flags exactly, and notes
whenever they survive the CSV round trip (`notesSafe`; empty or NA-like
notes come back as the string `"nan"`); it reproduces every photo row's
`(day, kind, bytes)` in order, with ids renumbered from 1, the filename
replaced by the derived archive basename, and the mime always set to
`image/jpeg` by the importer. -/
theorem C1_roundtrip_amended (L : List DailyRecord) (P : PhotoStore) (today : String)
    (hL : logWellFormed L) (hP : photoWellFormed P) :
    (importZip (exportZip L P) [] PhotoStore.empty today).ok = true ∧
    get_all_daily (importZip (exportZip L P) [] PhotoStore.empty today).log
      = get_all_daily L ∧
    (list_photos (importZip (exportZip L P) [] PhotoStore.empty today).photos none).map
        (fun r => (r.day, r.kind, r.data_b64))
      = (list_photos P none).map (fun r => (r.day, r.kind, r.data_b64)) ∧
    ∀ r ∈ (importZip (exportZip L P) [] PhotoStore.empty today).photos.rows,
      r.mime = "image/jpeg" := by
  obtain ⟨hnd, hnotes⟩ := hL
  have hwf : ∀ r ∈ list_photos P none, photoRowWellFormed r := by
    intro r hr
    apply hP
    unfold list_photos at hr
    simpa using (List.perm_insertionSort photoLe P.rows).mem_iff.1 hr
  have hloop := importPhotosLoop_export (list_photos P none) PhotoStore.empty today hwf
  have hphotos : (importZip (exportZip L P) [] PhotoStore.empty today).photos
      = { nextId := 1 + (list_photos P none).length
        , rows := transformRows 1 (list_photos P none) } := by
    rw [importZip_photos]
    show (importPhotosLoop today PhotoStore.empty
        ((list_photos P none).map (fun r => (photoPath r, b64decode r.data_b64)))).1 = _
    rw [hloop]
    simp [PhotoStore.empty]
  have hok : (importZip (exportZip L P) [] PhotoStore.empty today).ok = true := by
    show (importPhotosLoop today PhotoStore.empty
        ((list_photos P none).map (fun r => (photoPath r, b64decode r.data_b64)))).2 = true
    rw [hloop]
  have hlog : (importZip (exportZip L P) [] PhotoStore.empty today).log = get_all_daily L := by
    rw [importZip_log]
    show importLogRows [] ((get_all_daily L).map toCsvRow) = get_all_daily L
    rw [importLogRows_eq_applyUpserts, List.map_map]
    have hmapid : (get_all_daily L).map (csvToRecord ∘ toCsvRow) = get_all_daily L := by
      conv_rhs => rw [← List.map_id (get_all_daily L)]
      apply List.map_congr_left
      intro a ha
      have hmem : a ∈ L := by
        unfold get_all_daily at ha
        exact (List.perm_insertionSort dayLe L).mem_iff.1 ha
      exact csv_roundtrip_record a (hnotes a hmem)
    rw [hmapid]
    rw [applyUpserts_fresh (get_all_daily L) []
      (by
        intro r _
        simp [daysOf])
      (by
        exact (List.Perm.nodup_iff
          (List.Perm.map (fun r => r.day) (List.perm_insertionSort dayLe L))).2 hnd)]
    simp
  refine ⟨hok, ?_, ?_, ?_⟩
  · rw [hlog, get_all_daily_idem]
  · rw [hphotos]
    show (List.insertionSort photoLe (transformRows 1 (list_photos P none))).map
        (fun r => (r.day, r.kind, r.data_b64)) = _
    rw [List.Sorted.insertionSort_eq
      (transformRows_pairwise 1 (list_photos P none)
        (List.Pairwise.imp (fun hab => photoLe_imp_day _ _ hab)
          (List.sorted_insertionSort photoLe P.rows)))]
    exact transformRows_view 1 (list_photos P none)
  · rw [hphotos]
    intro r hr
    exact transformRows_mime 1 (list_photos P none) r hr

/-- A one-row log with CSV-safe notes. -/
def sampleSafeLog : List DailyRecord := [⟨0, true, false, false, false, "note"⟩]

/-- Witness for `C1_roundtrip_amended` on a one-row log and the one-PNG
photo store. -/
theorem C1_roundtrip_amended_witness :
    (logWellFormed sampleSafeLog ∧ photoWellFormed samplePngStore) ∧
    get_all_daily (importZip (exportZip sampleSafeLog samplePngStore) [] PhotoStore.empty
        "2024-01-06").log
      = get_all_daily sampleSafeLog :=
  ⟨⟨by decide, by decide⟩,
    (C1_roundtrip_amended sampleSafeLog samplePngStore "2024-01-06"
      (by decide) (by decide)).2.1⟩
